import Mathlib

/-!
# Verification of the `line_descriptor` module (opencv-rust binding of OpenCV 3.4)

The repository's `src/src/opencv_34/hub/line_descriptor.rs` is a thin
call-forwarding surface: every operation delegates through FFI to the
OpenCV C++ implementation, and the file's documentation (together with the
repository's specification) describes the underlying algorithms — the LBD
band descriptor, its binarization, the LSD multi-octave detection, and the
multi-index-hashing matcher.  The algorithmic bodies themselves are not
present in the repository's sources, so the definitions below are modelled
from the specification's words (each such definition says so in its doc
comment), and the claims are settled against these models.

Real-valued quantities (pixel values, gradients, descriptor entries,
coordinates) are embedded as rationals `ℚ`.  Transcendental maps that have
no exact rational counterpart (square root, `atan2`, Gaussian kernels) are
carried as explicit parameters of the model; no claim below depends on
their values.
-/

/-! ## Binary codes and Hamming distance -/

/-- A binary code is a list of bits; the matcher manages 256-bit codes. -/
abbrev Code := List Bool

/-- Modelled from the spec: positional Hamming distance between two codes
(the number of positions where the bits differ). -/
def hamming : Code → Code → Nat
  | [], _ => 0
  | _, [] => 0
  | a :: as, b :: bs => (if a = b then 0 else 1) + hamming as bs

theorem hamming_nil_right (a : Code) : hamming a [] = 0 := by
  cases a <;> rfl

theorem hamming_self (a : Code) : hamming a a = 0 := by
  induction a with
  | nil => rfl
  | cons x xs ih => simp [hamming, ih]

/-- Splitting a Hamming distance at a take/drop boundary. -/
theorem hamming_take_drop (n : Nat) (a b : Code) :
    hamming a b = hamming (a.take n) (b.take n) + hamming (a.drop n) (b.drop n) := by
  induction n generalizing a b with
  | zero => simp [hamming]
  | succ n ih =>
    cases a with
    | nil => simp [hamming]
    | cons x xs =>
      cases b with
      | nil => simp [hamming, hamming_nil_right]
      | cons y ys =>
        simp only [hamming, List.take_succ_cons, List.drop_succ_cons]
        rw [ih xs ys]
        omega

/-! ## Partition of a code into `m` substrings -/

/-- Modelled from the spec: the substring lengths of a `b`-bit code divided
into `m` disjoint substrings, each of `⌊b/m⌋` or `⌈b/m⌉` bits (the first
`b % m` substrings get the extra bit). -/
def chunkSizes (b m : Nat) : List Nat :=
  (List.range m).map fun i => b / m + if i < b % m then 1 else 0

theorem chunkSizes_length (b m : Nat) : (chunkSizes b m).length = m := by
  simp [chunkSizes]

theorem sum_range_const_add_indicator (m c s : Nat) :
    ((List.range m).map fun i => c + if i < s then 1 else 0).sum = m * c + min s m := by
  induction m with
  | zero => simp
  | succ k ih =>
    rw [List.range_succ, List.map_append, List.sum_append, ih]
    simp only [List.map_cons, List.map_nil, List.sum_cons, List.sum_nil]
    rw [Nat.succ_mul]
    by_cases h : k < s
    · simp only [if_pos h]
      omega
    · simp only [if_neg h]
      omega

theorem chunkSizes_sum (b m : Nat) (hm : 0 < m) : (chunkSizes b m).sum = b := by
  unfold chunkSizes
  rw [sum_range_const_add_indicator]
  have h1 : b % m < m := Nat.mod_lt b hm
  have h2 : min (b % m) m = b % m := by omega
  rw [h2]
  have := Nat.div_add_mod b m
  omega

/-- Split a list of bits into chunks of the given sizes. -/
def splitChunks : List Nat → Code → List Code
  | [], _ => []
  | n :: ns, l => l.take n :: splitChunks ns (l.drop n)

theorem splitChunks_length (ns : List Nat) (l : Code) :
    (splitChunks ns l).length = ns.length := by
  induction ns generalizing l with
  | nil => rfl
  | cons n ns ih => simp [splitChunks, ih]

/-- When the sizes fit inside the list, each chunk has exactly its requested size. -/
theorem splitChunks_map_length (ns : List Nat) (l : Code) (h : ns.sum ≤ l.length) :
    (splitChunks ns l).map List.length = ns := by
  induction ns generalizing l with
  | nil => rfl
  | cons n ns ih =>
    simp only [splitChunks, List.map_cons]
    have h1 : n ≤ l.length := by simp [List.sum_cons] at h; omega
    rw [List.length_take, Nat.min_eq_left h1, ih]
    have := l.length_drop n
    simp [List.sum_cons] at h
    omega

/-- The per-chunk Hamming distances sum exactly to the full distance once the
sizes exhaust both codes. -/
theorem hamming_splitChunks (ns : List Nat) (a b : Code) (hab : a.length = b.length) :
    (List.zipWith hamming (splitChunks ns a) (splitChunks ns b)).sum
      + hamming (a.drop ns.sum) (b.drop ns.sum) = hamming a b := by
  induction ns generalizing a b with
  | nil => simp [splitChunks]
  | cons n ns ih =>
    simp only [splitChunks, List.zipWith_cons_cons, List.sum_cons, List.sum_cons]
    have hd : (a.drop n).length = (b.drop n).length := by simp [hab]
    have h1 := ih (a.drop n) (b.drop n) hd
    rw [List.drop_drop, List.drop_drop] at h1
    have h2 := hamming_take_drop n a b
    omega

/-- Modelled from the spec: the `k`-th of the `m` disjoint substrings of a code. -/
def substr (m k : Nat) (c : Code) : Code :=
  (splitChunks (chunkSizes c.length m) c).getD k []

theorem exists_mem_le_div_of_sum_le (L : List Nat) (m r : Nat) (hm : 0 < m)
    (hlen : L.length = m) (hsum : L.sum ≤ r) : ∃ x ∈ L, x ≤ r / m := by
  by_contra hcon
  push_neg at hcon
  have hge : ∀ x ∈ L, r / m + 1 ≤ x := fun x hx => hcon x hx
  have hbound : L.length * (r / m + 1) ≤ L.sum := by
    clear hcon hsum hlen
    induction L with
    | nil => simp
    | cons y ys ih =>
      simp only [List.length_cons, List.sum_cons, Nat.succ_mul]
      have hy := hge y (by simp)
      have := ih fun x hx => hge x (List.mem_cons_of_mem _ hx)
      omega
  rw [hlen] at hbound
  have hmod := Nat.div_add_mod r m
  have hmlt : r % m < m := Nat.mod_lt r hm
  rw [Nat.mul_add, Nat.mul_one] at hbound
  have : m * (r / m) = r / m * m := Nat.mul_comm _ _
  omega

/-- The multi-index-hashing pigeonhole: two equal-length codes within Hamming
distance `r` agree to within `⌊r/m⌋` on at least one of the `m` substrings. -/
theorem getD_zipWith_hamming (as bs : List Code) (k : Nat)
    (ha : k < as.length) (hb : k < bs.length) :
    (List.zipWith hamming as bs).getD k 0 = hamming (as.getD k []) (bs.getD k []) := by
  rw [List.getD_eq_getElem _ _ (by rw [List.length_zipWith]; omega),
    List.getElem_zipWith, List.getD_eq_getElem _ _ ha, List.getD_eq_getElem _ _ hb]

theorem exists_substr_close (m r : Nat) (hm : 0 < m) (c q : Code)
    (hlen : c.length = q.length) (hd : hamming c q ≤ r) :
    ∃ k < m, hamming (substr m k c) (substr m k q) ≤ r / m := by
  set ns := chunkSizes c.length m with hns
  have hsum : ns.sum = c.length := chunkSizes_sum c.length m hm
  have hsplit := hamming_splitChunks ns c q hlen
  rw [hsum] at hsplit
  rw [List.drop_length, hlen, List.drop_length] at hsplit
  simp only [hamming] at hsplit
  set L := List.zipWith hamming (splitChunks ns c) (splitChunks ns q) with hL
  have hLlen : L.length = m := by
    rw [hL, List.length_zipWith, splitChunks_length, splitChunks_length]
    simp [hns, chunkSizes_length]
  have hLsum : L.sum ≤ r := by omega
  obtain ⟨x, hxmem, hxle⟩ := exists_mem_le_div_of_sum_le L m r hm hLlen hLsum
  have hxmem2 : ∃ k, k < L.length ∧ L.getD k 0 = x := by
    rw [List.mem_iff_getElem] at hxmem
    obtain ⟨k, hk, hxk⟩ := hxmem
    exact ⟨k, hk, by rw [List.getD_eq_getElem _ _ hk]; exact hxk⟩
  obtain ⟨k, hk0, hxk⟩ := hxmem2
  have hkm : k < m := hLlen ▸ hk0
  have hck : k < (splitChunks ns c).length := by
    rw [splitChunks_length, hns, chunkSizes_length]
    exact hkm
  have hqk : k < (splitChunks ns q).length := by
    rw [splitChunks_length, hns, chunkSizes_length]
    exact hkm
  have hg : L.getD k 0 =
      hamming ((splitChunks ns c).getD k []) ((splitChunks ns q).getD k []) := by
    rw [hL]
    exact getD_zipWith_hamming _ _ k hck hqk
  refine ⟨k, hkm, ?_⟩
  have hsc : substr m k c = (splitChunks ns c).getD k [] := by rw [substr, ← hns]
  have hsq : substr m k q = (splitChunks ns q).getD k [] := by
    rw [substr, ← hlen, ← hns]
  rw [hsc, hsq, ← hg, hxk]
  exact hxle

/-! ## Hash tables and the multi-index -/

/-- One hash table: an association list from substring value to the list of
identifiers of the dataset codes whose substring equals that value. -/
abbrev Table := List (Code × List Nat)

/-- Membership of identifier `i` under key `key` in a table. -/
def tableMem : Table → Code → Nat → Prop
  | [], _, _ => False
  | e :: t, key, i => (e.1 = key ∧ i ∈ e.2) ∨ tableMem t key i

/-- Insert identifier `id` under key `key`, appending to the key's bucket. -/
def tableInsert (key : Code) (id : Nat) : Table → Table
  | [] => [(key, [id])]
  | e :: t => if e.1 = key then (e.1, e.2 ++ [id]) :: t else e :: tableInsert key id t

theorem tableMem_tableInsert (key : Code) (id : Nat) (t : Table) (k : Code) (i : Nat) :
    tableMem (tableInsert key id t) k i ↔ tableMem t k i ∨ (k = key ∧ i = id) := by
  induction t with
  | nil =>
    simp only [tableInsert, tableMem, List.mem_singleton]
    constructor
    · rintro (⟨h1, h2⟩ | h) 
      · exact Or.inr ⟨h1.symm, h2⟩
      · exact h.elim
    · rintro (h | ⟨h1, h2⟩)
      · exact h.elim
      · exact Or.inl ⟨h1.symm, h2⟩
  | cons e t ih =>
    by_cases he : e.1 = key
    · simp only [tableInsert, if_pos he, tableMem, List.mem_append, List.mem_singleton]
      constructor
      · rintro (⟨h1, h2 | h2⟩ | h)
        · exact Or.inl (Or.inl ⟨h1, h2⟩)
        · exact Or.inr ⟨(he ▸ h1).symm, h2⟩
        · exact Or.inl (Or.inr h)
      · rintro ((⟨h1, h2⟩ | h) | ⟨h1, h2⟩)
        · exact Or.inl ⟨h1, Or.inl h2⟩
        · exact Or.inr h
        · exact Or.inl ⟨he.trans h1.symm, Or.inr h2⟩
    · simp only [tableInsert, if_neg he, tableMem, ih]
      tauto

/-- Populate one table from the codes, identifier `i0` onwards. -/
def buildTableAux (m k : Nat) : Nat → List Code → Table → Table
  | _, [], t => t
  | i, c :: cs, t => buildTableAux m k (i + 1) cs (tableInsert (substr m k c) i t)

/-- Modelled from the spec: the `k`-th hash table, keyed by the `k`-th
substring value of each dataset code and holding the code identifiers. -/
def buildTable (m k : Nat) (codes : List Code) : Table :=
  buildTableAux m k 0 codes []

theorem tableMem_buildTableAux (m k : Nat) (i0 : Nat) (cs : List Code) (t : Table)
    (key : Code) (j : Nat) :
    tableMem (buildTableAux m k i0 cs t) key j ↔
      tableMem t key j ∨ ∃ d < cs.length, substr m k (cs.getD d []) = key ∧ j = i0 + d := by
  induction cs generalizing i0 t with
  | nil => simp [buildTableAux]
  | cons c cs ih =>
    simp only [buildTableAux]
    rw [ih, tableMem_tableInsert]
    constructor
    · rintro ((h | ⟨h1, h2⟩) | ⟨d, hd, h1, h2⟩)
      · exact Or.inl h
      · exact Or.inr ⟨0, by simp, by simpa [h2] using h1.symm⟩
      · exact Or.inr ⟨d + 1, by simpa using hd, by simpa using h1, by omega⟩
    · rintro (h | ⟨d, hd, h1, h2⟩)
      · exact Or.inl (Or.inl h)
      · cases d with
        | zero =>
          refine Or.inl (Or.inr ⟨?_, by omega⟩)
          simpa using h1.symm
        | succ d =>
          refine Or.inr ⟨d, by simpa using hd, by simpa using h1, by omega⟩

theorem tableMem_buildTable (m k : Nat) (codes : List Code) (key : Code) (j : Nat) :
    tableMem (buildTable m k codes) key j ↔
      j < codes.length ∧ substr m k (codes.getD j []) = key := by
  rw [buildTable, tableMem_buildTableAux]
  simp only [tableMem, false_or, Nat.zero_add]
  constructor
  · rintro ⟨d, hd, h1, h2⟩
    exact h2 ▸ ⟨hd, h1⟩
  · rintro ⟨hj, h1⟩
    exact ⟨j, hj, h1, rfl⟩

/-- Modelled from the spec: the committed multi-index — the dataset codes
together with the `m` substring hash tables. -/
structure MihIndex where
  codes : List Code
  tables : List Table
deriving Repr, DecidableEq

/-- Modelled from the spec: build the committed index from a batch of codes,
partitioning each code into `m` substrings, each populating its own table. -/
def buildIndex (m : Nat) (codes : List Code) : MihIndex :=
  ⟨codes, (List.range m).map fun k => buildTable m k codes⟩

/-- Probe one table: all identifiers stored under a key within the given
substring Hamming radius of the query's substring. -/
def probeTable (t : Table) (qsub : Code) (rad : Nat) : List Nat :=
  ((t.filter fun e => hamming e.1 qsub ≤ rad).map Prod.snd).flatten

theorem tableMem_iff_exists (t : Table) (key : Code) (i : Nat) :
    tableMem t key i ↔ ∃ e ∈ t, e.1 = key ∧ i ∈ e.2 := by
  induction t with
  | nil => simp [tableMem]
  | cons e t ih => simp [tableMem, ih]

theorem mem_probeTable (t : Table) (qsub : Code) (rad : Nat) (i : Nat) :
    i ∈ probeTable t qsub rad ↔ ∃ key, tableMem t key i ∧ hamming key qsub ≤ rad := by
  unfold probeTable
  rw [List.mem_flatten]
  constructor
  · rintro ⟨l, hl, hil⟩
    rw [List.mem_map] at hl
    obtain ⟨e, he, rfl⟩ := hl
    rw [List.mem_filter, decide_eq_true_eq] at he
    exact ⟨e.1, (tableMem_iff_exists t e.1 i).mpr ⟨e, he.1, rfl, hil⟩, he.2⟩
  · rintro ⟨key, h1, h2⟩
    obtain ⟨e, he, hkey, hie⟩ := (tableMem_iff_exists t key i).mp h1
    refine ⟨e.2, List.mem_map.mpr ⟨e, ?_, rfl⟩, hie⟩
    rw [List.mem_filter, decide_eq_true_eq]
    exact ⟨he, hkey ▸ h2⟩

/-- The identifiers probed from the `k`-th built table are exactly the dataset
positions whose `k`-th substring lies within the probe radius. -/
theorem mem_probeTable_buildTable (m k : Nat) (codes : List Code) (qsub : Code)
    (rad : Nat) (i : Nat) :
    i ∈ probeTable (buildTable m k codes) qsub rad ↔
      i < codes.length ∧ hamming (substr m k (codes.getD i [])) qsub ≤ rad := by
  rw [mem_probeTable]
  constructor
  · rintro ⟨key, h1, h2⟩
    rw [tableMem_buildTable] at h1
    exact ⟨h1.1, h1.2 ▸ h2⟩
  · rintro ⟨hi, hle⟩
    exact ⟨substr m k (codes.getD i []), (tableMem_buildTable m k codes _ i).mpr ⟨hi, rfl⟩, hle⟩

/-- Modelled from the spec: probe each of the `m` tables with the query's
corresponding substring at the given substring radius, and take the
duplicate-free union of the returned identifiers. -/
def candidateUnion (m : Nat) (idx : MihIndex) (q : Code) (tabRad : Nat) : List Nat :=
  (((List.range m).map fun k => probeTable (idx.tables.getD k []) (substr m k q) tabRad).flatten).dedup

theorem mem_candidateUnion (m : Nat) (idx : MihIndex) (q : Code) (tabRad : Nat) (i : Nat) :
    i ∈ candidateUnion m idx q tabRad ↔
      ∃ k < m, i ∈ probeTable (idx.tables.getD k []) (substr m k q) tabRad := by
  unfold candidateUnion
  rw [List.mem_dedup, List.mem_flatten]
  constructor
  · rintro ⟨l, hl, hil⟩
    rw [List.mem_map] at hl
    obtain ⟨k, hk, rfl⟩ := hl
    exact ⟨k, List.mem_range.mp hk, hil⟩
  · rintro ⟨k, hk, hik⟩
    exact ⟨_, List.mem_map.mpr ⟨k, List.mem_range.mpr hk, rfl⟩, hik⟩

/-- Modelled from the spec: a radius query against a committed index — probe
every table at substring radius `⌊maxDist/m⌋`, union the candidates, then keep
only candidates whose full-code Hamming distance is at most `maxDist`. -/
def radiusQueryIdx (m : Nat) (idx : MihIndex) (q : Code) (maxDist : Nat) : List Nat :=
  (candidateUnion m idx q (maxDist / m)).filter fun i =>
    hamming (idx.codes.getD i []) q ≤ maxDist

/-! ## The matcher's staged / committed state machine -/

/-- Modelled from the spec: the matcher state — a staging area of codes not
yet committed, and the committed, queryable index. -/
structure Matcher where
  m : Nat
  staged : List Code
  committed : MihIndex
deriving Repr, DecidableEq

/-- Modelled from the spec: the matcher manages 256-bit codes. -/
def matcherCodeBits : Nat := 256

/-- Modelled from the spec: a fresh matcher of 256-bit entries, with an empty
staging area and an empty committed index. -/
def Matcher.new : Matcher := ⟨32, [], ⟨[], []⟩⟩

/-- Modelled from the spec: `add` appends the batch to the staging area and
leaves the committed index untouched. -/
def Matcher.add (mt : Matcher) (descriptors : List Code) : Matcher :=
  { mt with staged := mt.staged ++ descriptors }

/-- Modelled from the spec: `train` replaces the committed index with one
built solely from the staged codes and clears the staging area. -/
def Matcher.train (mt : Matcher) : Matcher :=
  { mt with committed := buildIndex mt.m mt.staged, staged := [] }

/-- Modelled from the spec: `clear` discards both staged and committed data. -/
def Matcher.clear (mt : Matcher) : Matcher :=
  { mt with staged := [], committed := ⟨[], []⟩ }

/-- Modelled from the spec: a radius query runs against the committed index only. -/
def Matcher.radiusQuery (mt : Matcher) (q : Code) (maxDist : Nat) : List Nat :=
  radiusQueryIdx mt.m mt.committed q maxDist

theorem buildIndex_tables_getD (m k : Nat) (codes : List Code) (hk : k < m) :
    (buildIndex m codes).tables.getD k [] = buildTable m k codes := by
  unfold buildIndex
  rw [List.getD_eq_getElem _ _ (by simpa using hk)]
  simp

/-- C1: for every committed dataset of 256-bit codes and query code, a dataset
code within true Hamming distance `r` of the query is among the per-substring
candidates and is returned by a radius query with `maxDistance ≥ r`; the final
exact filter keeps only codes within `maxDistance`. -/
theorem radius_match_recall (m r maxDist : Nat) (codes : List Code) (q : Code) (i : Nat)
    (hm : 0 < m) (hq : q.length = 256) (hcodes : ∀ c ∈ codes, c.length = 256)
    (hi : i < codes.length) (hd : hamming (codes.getD i []) q ≤ r) (hr : r ≤ maxDist) :
    i ∈ candidateUnion m (buildIndex m codes) q (maxDist / m) ∧
    i ∈ radiusQueryIdx m (buildIndex m codes) q maxDist ∧
    ∀ j ∈ radiusQueryIdx m (buildIndex m codes) q maxDist,
      hamming ((buildIndex m codes).codes.getD j []) q ≤ maxDist := by
  have hmem : codes.getD i [] ∈ codes := by
    rw [List.getD_eq_getElem _ _ hi]
    exact List.getElem_mem hi
  have hlen : (codes.getD i []).length = q.length := by
    rw [hq, hcodes _ hmem]
  obtain ⟨k, hk, hsub⟩ :=
    exists_substr_close m maxDist hm (codes.getD i []) q hlen (le_trans hd hr)
  have hcand : i ∈ candidateUnion m (buildIndex m codes) q (maxDist / m) := by
    rw [mem_candidateUnion]
    refine ⟨k, hk, ?_⟩
    rw [buildIndex_tables_getD m k codes hk, mem_probeTable_buildTable]
    exact ⟨hi, hsub⟩
  have hdist : hamming ((buildIndex m codes).codes.getD i []) q ≤ maxDist :=
    le_trans hd hr
  refine ⟨hcand, ?_, ?_⟩
  · rw [radiusQueryIdx, List.mem_filter, decide_eq_true_eq]
    exact ⟨hcand, hdist⟩
  · intro j hj
    rw [radiusQueryIdx, List.mem_filter, decide_eq_true_eq] at hj
    exact hj.2

set_option maxRecDepth 4000 in
theorem radius_match_recall_witness :
    0 ∈ candidateUnion 2 (buildIndex 2 [List.replicate 256 false])
        (List.replicate 256 false) (0 / 2) ∧
    0 ∈ radiusQueryIdx 2 (buildIndex 2 [List.replicate 256 false])
        (List.replicate 256 false) 0 ∧
    ∀ j ∈ radiusQueryIdx 2 (buildIndex 2 [List.replicate 256 false])
        (List.replicate 256 false) 0,
      hamming ((buildIndex 2 [List.replicate 256 false]).codes.getD j [])
        (List.replicate 256 false) ≤ 0 :=
  radius_match_recall 2 0 0 [List.replicate 256 false] (List.replicate 256 false) 0
    (by decide) (by simp) (by simp) (by simp) (by simp [hamming_self]) (le_refl 0)

theorem ceil_div_of_mod_ne (b m : Nat) (hm : 0 < m) (hs : b % m ≠ 0) :
    (b + m - 1) / m = b / m + 1 := by
  have hdm := Nat.div_add_mod b m
  have hslt : b % m < m := Nat.mod_lt b hm
  have h1 : b + m - 1 = m * (b / m) + (m + (b % m - 1)) := by omega
  rw [h1, Nat.mul_add_div hm, Nat.add_div_left _ hm,
    Nat.div_eq_of_lt (show b % m - 1 < m by omega)]

theorem substr_length (m k : Nat) (c : Code) (hm : 0 < m) (hk : k < m) :
    (substr m k c).length = c.length / m + if k < c.length % m then 1 else 0 := by
  have hsum : (chunkSizes c.length m).sum = c.length := chunkSizes_sum _ _ hm
  have hmap := splitChunks_map_length (chunkSizes c.length m) c (le_of_eq hsum)
  have hk2 : k < (splitChunks (chunkSizes c.length m) c).length := by
    rw [splitChunks_length, chunkSizes_length]
    exact hk
  have h1 : ((splitChunks (chunkSizes c.length m) c).map List.length).getD k 0
      = (substr m k c).length := by
    rw [substr, List.getD_eq_getElem _ _ (by simpa using hk2), List.getElem_map,
      List.getD_eq_getElem _ _ hk2]
  rw [← h1, hmap]
  unfold chunkSizes
  rw [List.getD_eq_getElem _ _ (by simpa using hk)]
  simp

/-- C5: `add` appends to the staging area and leaves the committed, queryable
index unchanged (radius queries are unaffected); `train` replaces the
committed index with one built solely from the staged codes — `m` substring
tables, table `k` holding exactly the staged positions keyed by their `k`-th
substring, the substrings being of `⌊b/m⌋` or `⌈b/m⌉` bits — and clears the
staging area. -/
theorem matcher_add_train_frame (mt : Matcher) (ds : List Code) (hm : 0 < mt.m) :
    ((mt.add ds).staged = mt.staged ++ ds) ∧
    ((mt.add ds).committed = mt.committed) ∧
    (∀ q d, (mt.add ds).radiusQuery q d = mt.radiusQuery q d) ∧
    (mt.train.staged = []) ∧
    (mt.train.committed.codes = mt.staged) ∧
    (mt.train.committed.tables.length = mt.m) ∧
    (∀ k, k < mt.m → ∀ key j,
      tableMem (mt.train.committed.tables.getD k []) key j ↔
        (j < mt.staged.length ∧ substr mt.m k (mt.staged.getD j []) = key)) ∧
    (∀ c ∈ mt.staged, ∀ k, k < mt.m →
      (substr mt.m k c).length = c.length / mt.m ∨
      (substr mt.m k c).length = (c.length + mt.m - 1) / mt.m) := by
  refine ⟨rfl, rfl, fun q d => rfl, rfl, rfl, ?_, ?_, ?_⟩
  · simp [Matcher.train, buildIndex]
  · intro k hk key j
    show tableMem ((buildIndex mt.m mt.staged).tables.getD k []) key j ↔ _
    rw [buildIndex_tables_getD mt.m k mt.staged hk, tableMem_buildTable]
  · intro c _ k hk
    rw [substr_length mt.m k c hm hk]
    by_cases hcase : k < c.length % mt.m
    · right
      rw [if_pos hcase, ceil_div_of_mod_ne c.length mt.m hm (by omega)]
    · left
      rw [if_neg hcase]
      omega

theorem matcher_add_train_frame_witness :
    ((Matcher.new.add [[true, false]]).staged = Matcher.new.staged ++ [[true, false]]) ∧
    ((Matcher.new.add [[true, false]]).committed = Matcher.new.committed) ∧
    (∀ q d, (Matcher.new.add [[true, false]]).radiusQuery q d = Matcher.new.radiusQuery q d) ∧
    (Matcher.new.train.staged = []) ∧
    (Matcher.new.train.committed.codes = Matcher.new.staged) ∧
    (Matcher.new.train.committed.tables.length = Matcher.new.m) ∧
    (∀ k, k < Matcher.new.m → ∀ key j,
      tableMem (Matcher.new.train.committed.tables.getD k []) key j ↔
        (j < Matcher.new.staged.length ∧
          substr Matcher.new.m k (Matcher.new.staged.getD j []) = key)) ∧
    (∀ c ∈ Matcher.new.staged, ∀ k, k < Matcher.new.m →
      (substr Matcher.new.m k c).length = c.length / Matcher.new.m ∨
      (substr Matcher.new.m k c).length = (c.length + Matcher.new.m - 1) / Matcher.new.m) :=
  matcher_add_train_frame Matcher.new [[true, false]] (by decide)

/-! ## The binarizer -/

/-- Modelled from the spec: the reference layout fixes 9 band descriptors
(the default band count), from which the 32 canonical comparison pairs are
computed once. -/
def referenceBands : Nat := 9

/-- Modelled from the spec: the 32 canonical (band descriptor A, band
descriptor B) pairs — the first 32 ordered pairs `i < j` of the reference
layout, independent of the configured band count. -/
def canonicalPairs : List (Nat × Nat) :=
  ((((List.range referenceBands).map fun i =>
      ((List.range referenceBands).drop (i + 1)).map fun j => (i, j))).flatten).take 32

theorem canonicalPairs_length : canonicalPairs.length = 32 := by decide

/-- Modelled from the spec: comparing one canonical pair of 8-scalar band
descriptors entry by entry yields one 8-bit comparison byte. -/
def cmpByte (d : List ℚ) (p : Nat × Nat) : List Bool :=
  (List.range 8).map fun t => decide (d.getD (8 * p.1 + t) 0 > d.getD (8 * p.2 + t) 0)

theorem cmpByte_length (d : List ℚ) (p : Nat × Nat) : (cmpByte d p).length = 8 := by
  simp [cmpByte]

/-- Modelled from the spec: the binarizer — a pure, stateless function of one
real descriptor, concatenating the 32 comparison bytes in pair order into one
256-bit code. -/
def binarize (d : List ℚ) : Code :=
  (canonicalPairs.map (cmpByte d)).flatten

theorem sum_map_const_nat {α : Type} (l : List α) (c : Nat) :
    (l.map fun _ => c).sum = l.length * c := by
  induction l with
  | nil => simp
  | cons x t ih => simp [ih, Nat.succ_mul]; omega

theorem binarize_length (d : List ℚ) : (binarize d).length = 256 := by
  unfold binarize
  rw [List.length_flatten, List.map_map]
  have h : (canonicalPairs.map (List.length ∘ cmpByte d)) =
      canonicalPairs.map fun _ => 8 := by
    apply List.map_congr_left
    intro p _
    exact cmpByte_length d p
  rw [h, sum_map_const_nat, canonicalPairs_length]

/-- C2: for every batch of real descriptors, regardless of the configured band
count `m`, the binarizer emits exactly one 256-bit code per descriptor — 32
canonical pairs, one 8-bit comparison byte each, concatenated in pair order —
and the matcher stores exactly those 256-bit entries after add/train. -/
theorem binarizer_fixed_width (m : Nat) (batch : List (List ℚ))
    (hbatch : ∀ d ∈ batch, d.length = 8 * m) :
    ((batch.map binarize).length = batch.length) ∧
    (∀ code ∈ batch.map binarize, code.length = 256) ∧
    (canonicalPairs.length = 32) ∧
    (∀ d ∈ batch, ∀ p ∈ canonicalPairs, (cmpByte d p).length = 8) ∧
    (∀ d ∈ batch, binarize d = (canonicalPairs.map (cmpByte d)).flatten) ∧
    ((Matcher.new.add (batch.map binarize)).train.committed.codes = batch.map binarize) ∧
    (∀ c ∈ (Matcher.new.add (batch.map binarize)).train.committed.codes, c.length = 256) := by
  refine ⟨List.length_map _ _, ?_, canonicalPairs_length, ?_, ?_, ?_, ?_⟩
  · intro code hcode
    rw [List.mem_map] at hcode
    obtain ⟨d, _, rfl⟩ := hcode
    exact binarize_length d
  · intro d _ p _
    exact cmpByte_length d p
  · intro d _
    rfl
  · rfl
  · intro c hc
    rw [show (Matcher.new.add (batch.map binarize)).train.committed.codes
        = batch.map binarize from rfl, List.mem_map] at hc
    obtain ⟨d, _, rfl⟩ := hc
    exact binarize_length d

theorem binarizer_fixed_width_witness :
    (([List.replicate 8 (0 : ℚ)].map binarize).length = [List.replicate 8 (0 : ℚ)].length) ∧
    (∀ code ∈ [List.replicate 8 (0 : ℚ)].map binarize, code.length = 256) ∧
    (canonicalPairs.length = 32) ∧
    (∀ d ∈ [List.replicate 8 (0 : ℚ)], ∀ p ∈ canonicalPairs, (cmpByte d p).length = 8) ∧
    (∀ d ∈ [List.replicate 8 (0 : ℚ)], binarize d = (canonicalPairs.map (cmpByte d)).flatten) ∧
    ((Matcher.new.add ([List.replicate 8 (0 : ℚ)].map binarize)).train.committed.codes
      = [List.replicate 8 (0 : ℚ)].map binarize) ∧
    (∀ c ∈ (Matcher.new.add ([List.replicate 8 (0 : ℚ)].map binarize)).train.committed.codes,
      c.length = 256) :=
  binarizer_fixed_width 1 [List.replicate 8 (0 : ℚ)] (by simp)

/-- Modelled from the spec: sign-flip every entry of a real descriptor. -/
def negate (d : List ℚ) : List ℚ := d.map fun x => -x

/-- The pair of descriptor entry positions compared at bit `p` of the code:
byte `p / 8` names the canonical pair, bit `p % 8` the entry inside each
8-scalar band descriptor. -/
def entriesAt (p : Nat) : Nat × Nat :=
  let pr := canonicalPairs.getD (p / 8) (0, 0)
  (8 * pr.1 + p % 8, 8 * pr.2 + p % 8)

/-- Bit `p` is sign-derived for descriptor `d` when the two compared entries
differ, so that the comparison is decided by sign rather than by a tie. -/
def signDerived (d : List ℚ) (p : Nat) : Prop :=
  d.getD (entriesAt p).1 0 ≠ d.getD (entriesAt p).2 0

/-- Indexing a flattening of 8-bit bytes. -/
theorem getD_flatten_bytes (L : List Code) (p : Nat)
    (hL : ∀ x ∈ L, x.length = 8) (hp : p < 8 * L.length) :
    L.flatten.getD p false = (L.getD (p / 8) []).getD (p % 8) false := by
  induction L generalizing p with
  | nil => simp at hp
  | cons x t ih =>
    have hx : x.length = 8 := hL x (by simp)
    rw [List.flatten_cons]
    by_cases hlt : p < 8
    · rw [List.getD_append _ _ _ _ (by omega)]
      have h0 : p / 8 = 0 := by omega
      have h1 : p % 8 = p := by omega
      rw [h0, h1]
      rfl
    · rw [List.getD_append_right _ _ _ _ (by omega)]
      have ht : ∀ y ∈ t, y.length = 8 := fun y hy => hL y (List.mem_cons_of_mem _ hy)
      have hp' : p - x.length < 8 * t.length := by
        simp only [List.length_cons, Nat.mul_add, Nat.mul_one] at hp
        omega
      rw [ih _ ht hp']
      have h2 : (p - x.length) / 8 = p / 8 - 1 := by omega
      have h3 : (p - x.length) % 8 = p % 8 := by omega
      rw [h2, h3]
      have h4 : p / 8 = (p / 8 - 1) + 1 := by omega
      rw [h4]
      rfl

/-- The `p`-th bit of a binarized descriptor is the comparison of the two
entries named by `entriesAt p`. -/
theorem binarize_getD (d : List ℚ) (p : Nat) (hp : p < 256) :
    (binarize d).getD p false =
      decide (d.getD (entriesAt p).1 0 > d.getD (entriesAt p).2 0) := by
  unfold binarize
  rw [getD_flatten_bytes _ _ (by
      intro x hx
      rw [List.mem_map] at hx
      obtain ⟨pr, _, rfl⟩ := hx
      exact cmpByte_length d pr)
    (by rw [List.length_map, canonicalPairs_length]; omega)]
  have hdiv : p / 8 < 32 := by omega
  have hdiv' : p / 8 < canonicalPairs.length := by rw [canonicalPairs_length]; exact hdiv
  have hbyte : (List.map (cmpByte d) canonicalPairs).getD (p / 8) [] =
      cmpByte d (canonicalPairs.getD (p / 8) (0, 0)) := by
    rw [List.getD_eq_getElem _ _ (by rw [List.length_map]; exact hdiv'), List.getElem_map,
      List.getD_eq_getElem _ _ hdiv']
  rw [hbyte]
  have hmod : p % 8 < 8 := by omega
  unfold cmpByte
  rw [List.getD_eq_getElem _ _ (by simpa using hmod), List.getElem_map]
  simp only [List.getElem_range]
  rfl

theorem negate_getD (d : List ℚ) (i : Nat) : (negate d).getD i 0 = -(d.getD i 0) := by
  by_cases hi : i < d.length
  · rw [negate, List.getD_eq_getElem _ _ (by simpa using hi), List.getElem_map,
      List.getD_eq_getElem _ _ hi]
  · rw [List.getD_eq_default _ _ (by simpa [negate] using Nat.le_of_not_lt hi),
      List.getD_eq_default _ _ (Nat.le_of_not_lt hi)]
    simp

/-- C7: binarization is deterministic, and binarizing the sign-flipped
descriptor complements the code at every sign-derived bit position. -/
theorem binarize_deterministic_and_negation (d : List ℚ) (p : Nat)
    (hp : p < 256) (hs : signDerived d p) :
    binarize d = binarize d ∧
    (binarize (negate d)).getD p false = !((binarize d).getD p false) := by
  refine ⟨rfl, ?_⟩
  rw [binarize_getD _ _ hp, binarize_getD _ _ hp, negate_getD, negate_getD]
  unfold signDerived at hs
  set x := d.getD (entriesAt p).1 0 with hx
  set y := d.getD (entriesAt p).2 0 with hy
  by_cases hxy : x < y
  · have hgt : -x > -y := neg_lt_neg hxy
    have hngt : ¬(x > y) := not_lt.mpr (le_of_lt hxy)
    simp [hgt, hngt]
  · have hyx : y < x := lt_of_le_of_ne (not_lt.mp hxy) (Ne.symm hs)
    have hngt : ¬(-x > -y) := not_lt.mpr (neg_le_neg (le_of_lt hyx))
    simp [hyx, hngt]

theorem binarize_deterministic_and_negation_witness :
    binarize [(1 : ℚ)] = binarize [(1 : ℚ)] ∧
    (binarize (negate [(1 : ℚ)])).getD 0 false = !((binarize [(1 : ℚ)]).getD 0 false) :=
  binarize_deterministic_and_negation [(1 : ℚ)] 0 (by decide) (by unfold signDerived; decide)

/-! ## The band descriptor engine -/

/-- Modelled from the spec: the inputs of the band descriptor engine for one
line support region — `m` bands of width `w`, rows of `rowLen` pixels, the
projected gradient of each pixel (perpendicular and parallel components), and
the Gaussian weighting coefficients.  The global weight `fg`, the per-band
local weight `fl` and the square-root map `sqrtA` are carried as parameters
because their real-valued definitions (Gaussians, square root) have no exact
rational counterpart; no claim below depends on their values. -/
structure BandInput where
  m : Nat
  w : Nat
  rowLen : Nat
  grad : Nat → Nat → ℚ × ℚ
  fg : Nat → ℚ
  fl : Nat → Nat → ℚ
  sqrtA : ℚ → ℚ

/-- The row indices belonging to band `j` itself. -/
def bandRows (w j : Nat) : List Nat :=
  (List.range w).map fun t => j * w + t

/-- Modelled from the spec: the rows contributing to band `j`'s description —
its own rows plus those of its immediate neighbor bands, the top (bottom)
neighbor being excluded for the first (last) band. -/
def includedRows (m w j : Nat) : List Nat :=
  (if j = 0 then [] else bandRows w (j - 1)) ++ bandRows w j ++
    (if j + 1 < m then bandRows w (j + 1) else [])

/-- Modelled from the spec: the four signed-split sums of the weighted
projected gradients accumulated over row `k` for band `j`. -/
def rowScalars (inp : BandInput) (j k : Nat) : List ℚ :=
  let lam := inp.fg k * inp.fl j k
  let cols := List.range inp.rowLen
  [lam * (cols.map fun c => max (inp.grad k c).1 0).sum,
   lam * (cols.map fun c => max (-(inp.grad k c).1) 0).sum,
   lam * (cols.map fun c => max (inp.grad k c).2 0).sum,
   lam * (cols.map fun c => max (-(inp.grad k c).2) 0).sum]

/-- Modelled from the spec: the band description matrix of band `j` — four
rows (one per signed-split sum), one column per included row. -/
def BDM (inp : BandInput) (j : Nat) : List (List ℚ) :=
  (List.range 4).map fun s =>
    (includedRows inp.m inp.w j).map fun k => (rowScalars inp j k).getD s 0

/-- Arithmetic mean of a list of rationals. -/
def meanQ (l : List ℚ) : ℚ := l.sum / l.length

/-- Population variance of a list of rationals. -/
def varQ (l : List ℚ) : ℚ := (l.map fun x => (x - meanQ l) ^ 2).sum / l.length

/-- The 4-vector of row means of a band description matrix. -/
def meanVec (M : List (List ℚ)) : List ℚ := M.map meanQ

/-- The 4-vector of row standard deviations of a band description matrix
(through the model's square-root map). -/
def stdVec (inp : BandInput) (M : List (List ℚ)) : List ℚ :=
  M.map fun row => inp.sqrtA (varQ row)

/-- Modelled from the spec: one band's descriptor — its matrix's mean
4-vector followed by its standard-deviation 4-vector. -/
def bandDescriptor (inp : BandInput) (j : Nat) : List ℚ :=
  meanVec (BDM inp j) ++ stdVec inp (BDM inp j)

/-- Modelled from the spec: the LBD — the concatenation, in band order, of
every band's (mean, standard deviation) pair. -/
def lbd (inp : BandInput) : List ℚ :=
  ((List.range inp.m).map fun j => bandDescriptor inp j).flatten

theorem includedRows_length (m w j : Nat) (hm : 2 ≤ m) (hj : j < m) :
    (includedRows m w j).length = if j = 0 ∨ j = m - 1 then 2 * w else 3 * w := by
  unfold includedRows bandRows
  by_cases h0 : j = 0
  · subst h0
    have h1 : 0 + 1 < m := by omega
    simp [h1]
    omega
  · by_cases h1 : j = m - 1
    · have h2 : ¬(j + 1 < m) := by omega
      rw [if_neg h0, if_neg h2, if_pos (Or.inr h1)]
      simp
      omega
    · have h2 : j + 1 < m := by omega
      rw [if_neg h0, if_pos h2, if_neg (by tauto)]
      simp
      omega

theorem bandDescriptor_length (inp : BandInput) (j : Nat) :
    (bandDescriptor inp j).length = 8 := by
  unfold bandDescriptor meanVec stdVec BDM
  simp

theorem lbd_length (inp : BandInput) : (lbd inp).length = 8 * inp.m := by
  unfold lbd
  rw [List.length_flatten, List.map_map]
  have h : (List.range inp.m).map (List.length ∘ fun j => bandDescriptor inp j)
      = (List.range inp.m).map fun _ => 8 := by
    apply List.map_congr_left
    intro j _
    exact bandDescriptor_length inp j
  rw [h, sum_map_const_nat, List.length_range, Nat.mul_comm]

/-- C3: each band description matrix is 4 × n with n = 2·band_width for the
first and last band and n = 3·band_width for interior bands, and the LBD is
the concatenation, in band order, of each band's (mean, standard deviation)
pair, of total length 8·m. -/
theorem band_descriptor_shape (inp : BandInput) (hm : 2 ≤ inp.m) :
    (∀ j < inp.m, (BDM inp j).length = 4 ∧
      ∀ row ∈ BDM inp j,
        row.length = if j = 0 ∨ j = inp.m - 1 then 2 * inp.w else 3 * inp.w) ∧
    (lbd inp = ((List.range inp.m).map fun j =>
      meanVec (BDM inp j) ++ stdVec inp (BDM inp j)).flatten) ∧
    ((lbd inp).length = 8 * inp.m) := by
  refine ⟨?_, rfl, lbd_length inp⟩
  intro j hj
  refine ⟨by simp [BDM], ?_⟩
  intro row hrow
  unfold BDM at hrow
  rw [List.mem_map] at hrow
  obtain ⟨s, _, rfl⟩ := hrow
  rw [List.length_map, includedRows_length inp.m inp.w j hm hj]

/-- A sample line support region configuration at the default band count. -/
def sampleBandInput : BandInput :=
  ⟨9, 7, 5, fun _ _ => (0, 0), fun _ => 0, fun _ _ => 0, fun _ => 0⟩

theorem band_descriptor_shape_witness :
    (∀ j < sampleBandInput.m, (BDM sampleBandInput j).length = 4 ∧
      ∀ row ∈ BDM sampleBandInput j,
        row.length = if j = 0 ∨ j = sampleBandInput.m - 1
          then 2 * sampleBandInput.w else 3 * sampleBandInput.w) ∧
    (lbd sampleBandInput = ((List.range sampleBandInput.m).map fun j =>
      meanVec (BDM sampleBandInput j) ++ stdVec sampleBandInput (BDM sampleBandInput j)).flatten) ∧
    ((lbd sampleBandInput).length = 8 * sampleBandInput.m) :=
  band_descriptor_shape sampleBandInput (by decide)

/-! ## KeyLine records and the line record assembler -/

/-- A 2D point with rational coordinates (the binding's `Point2f`). -/
structure Point2f where
  x : ℚ
  y : ℚ
deriving Repr, DecidableEq

/-- The `KeyLine` record, with the binding's fields; `f32` fields are
embedded as `ℚ` and `i32` fields as `Int`. -/
structure KeyLine where
  angle : ℚ
  class_id : Int
  octave : Int
  pt : Point2f
  response : ℚ
  size : ℚ
  start_point_x : ℚ
  start_point_y : ℚ
  end_point_x : ℚ
  end_point_y : ℚ
  s_point_in_octave_x : ℚ
  s_point_in_octave_y : ℚ
  e_point_in_octave_x : ℚ
  e_point_in_octave_y : ℚ
  line_length : ℚ
  num_of_pixels : Int
deriving Repr, DecidableEq

/-- Modelled from the spec: the default-constructed record. -/
def KeyLine.new : KeyLine :=
  ⟨0, 0, 0, ⟨0, 0⟩, 0, 0, 0, 0, 0, 0, 0, 0, 0, 0, 0, 0⟩

/-- Modelled from the spec: returns the start point of the line in the
original image, together with the record after the call (the call reads the
record and leaves it unchanged). -/
def KeyLine.get_start_point (kl : KeyLine) : Point2f × KeyLine :=
  (⟨kl.start_point_x, kl.start_point_y⟩, kl)

/-- Modelled from the spec: returns the end point of the line in the
original image, and the unchanged record. -/
def KeyLine.get_end_point (kl : KeyLine) : Point2f × KeyLine :=
  (⟨kl.end_point_x, kl.end_point_y⟩, kl)

/-- Modelled from the spec: returns the start point of the line in the
octave it was extracted from, and the unchanged record. -/
def KeyLine.get_start_point_in_octave (kl : KeyLine) : Point2f × KeyLine :=
  (⟨kl.s_point_in_octave_x, kl.s_point_in_octave_y⟩, kl)

/-- Modelled from the spec: returns the end point of the line in the octave
it was extracted from, and the unchanged record. -/
def KeyLine.get_end_point_in_octave (kl : KeyLine) : Point2f × KeyLine :=
  (⟨kl.e_point_in_octave_x, kl.e_point_in_octave_y⟩, kl)

/-- C10: the four point accessors return exactly the points formed from the
record's corresponding coordinate fields, and leave the record unchanged. -/
theorem keyline_accessors (kl : KeyLine) :
    (kl.get_start_point.1 = ⟨kl.start_point_x, kl.start_point_y⟩ ∧
      kl.get_start_point.2 = kl) ∧
    (kl.get_end_point.1 = ⟨kl.end_point_x, kl.end_point_y⟩ ∧
      kl.get_end_point.2 = kl) ∧
    (kl.get_start_point_in_octave.1 = ⟨kl.s_point_in_octave_x, kl.s_point_in_octave_y⟩ ∧
      kl.get_start_point_in_octave.2 = kl) ∧
    (kl.get_end_point_in_octave.1 = ⟨kl.e_point_in_octave_x, kl.e_point_in_octave_y⟩ ∧
      kl.get_end_point_in_octave.2 = kl) :=
  ⟨⟨rfl, rfl⟩, ⟨rfl, rfl⟩, ⟨rfl, rfl⟩, ⟨rfl, rfl⟩⟩

/-! ## The descriptor engine's configuration surface -/

/-- Modelled from the spec: the descriptor engine's configuration — number of
octaves, width of bands, and the pyramid reduction ratio (an integer at this
interface, as in the binding's setter). -/
structure BDConfig where
  num_of_octaves : Int
  width_of_band : Int
  reduction_ratio : Int
deriving Repr, DecidableEq

/-- Modelled from the spec: set the number of octaves. -/
def set_num_of_octaves (c : BDConfig) (v : Int) : BDConfig :=
  { c with num_of_octaves := v }

/-- Modelled from the spec: get the current number of octaves. -/
def get_num_of_octaves (c : BDConfig) : Int := c.num_of_octaves

/-- Modelled from the spec: set the width of bands. -/
def set_width_of_band (c : BDConfig) (v : Int) : BDConfig :=
  { c with width_of_band := v }

/-- Modelled from the spec: get the current width of bands. -/
def get_width_of_band (c : BDConfig) : Int := c.width_of_band

/-- Modelled from the spec: set the reduction ratio used in Gaussian pyramids. -/
def set_reduction_ratio (c : BDConfig) (v : Int) : BDConfig :=
  { c with reduction_ratio := v }

/-- Modelled from the spec: get the current reduction ratio. -/
def get_reduction_ratio (c : BDConfig) : Int := c.reduction_ratio

/-- C9: each of the three configuration parameters is independently settable
and readable — its setter followed by its getter returns the set value, and
each setter leaves the other two parameters unchanged. -/
theorem config_accessors_independent (c : BDConfig) (v : Int) :
    (get_num_of_octaves (set_num_of_octaves c v) = v ∧
      get_width_of_band (set_num_of_octaves c v) = get_width_of_band c ∧
      get_reduction_ratio (set_num_of_octaves c v) = get_reduction_ratio c) ∧
    (get_width_of_band (set_width_of_band c v) = v ∧
      get_num_of_octaves (set_width_of_band c v) = get_num_of_octaves c ∧
      get_reduction_ratio (set_width_of_band c v) = get_reduction_ratio c) ∧
    (get_reduction_ratio (set_reduction_ratio c v) = v ∧
      get_num_of_octaves (set_reduction_ratio c v) = get_num_of_octaves c ∧
      get_width_of_band (set_reduction_ratio c v) = get_width_of_band c) :=
  ⟨⟨rfl, rfl, rfl⟩, ⟨rfl, rfl, rfl⟩, ⟨rfl, rfl, rfl⟩⟩

/-- Modelled from the spec: the transcendental maps the assembler needs —
square root (for Euclidean length) and `atan2` (for the slope angle) — kept
as parameters of the rational model. -/
structure RealOps where
  sqrtA : ℚ → ℚ
  atan2A : ℚ → ℚ → ℚ

/-- A raw detector segment: two floating-point endpoints in octave-local
coordinates. -/
structure Segment where
  sx : ℚ
  sy : ℚ
  ex : ℚ
  ey : ℚ
deriving Repr, DecidableEq

/-- Modelled from the spec: the pixel count along the segment, by walking the
discrete raster between the rounded endpoints (a digital-line enumeration). -/
def numPixels (sx sy ex ey : ℚ) : Int :=
  (max (round ex - round sx).natAbs (round ey - round sy).natAbs + 1 : Nat)

/-- Modelled from the spec: assemble one line record from a detector segment
found in the given octave.  Original-image coordinates are the octave-local
coordinates scaled by `ratio ^ octave`; the angle comes from the endpoint
vector, the midpoint is the endpoint average, the length is Euclidean, the
size is length × an assumed unit width, the response is length over the
larger image dimension, and `class_id` is the given per-octave emission
index. -/
def assembleKeyLine (ops : RealOps) (imgW imgH : Nat) (ratio : ℚ) (octave : Nat)
    (idx : Int) (s : Segment) : KeyLine :=
  let f := ratio ^ octave
  let sx := s.sx * f
  let sy := s.sy * f
  let ex := s.ex * f
  let ey := s.ey * f
  let len := ops.sqrtA ((ex - sx) ^ 2 + (ey - sy) ^ 2)
  { angle := ops.atan2A (ey - sy) (ex - sx)
    class_id := idx
    octave := (octave : Int)
    pt := ⟨(sx + ex) / 2, (sy + ey) / 2⟩
    response := len / (max imgW imgH : ℚ)
    size := len * 1
    start_point_x := sx
    start_point_y := sy
    end_point_x := ex
    end_point_y := ey
    s_point_in_octave_x := s.sx
    s_point_in_octave_y := s.sy
    e_point_in_octave_x := s.ex
    e_point_in_octave_y := s.ey
    line_length := len
    num_of_pixels := numPixels sx sy ex ey }

/-- C4: every assembled line record's original-image coordinates equal the
corresponding octave-local coordinates multiplied by the reduction ratio
raised to the record's octave index (exactly, in the rational model). -/
theorem keyline_coordinate_scaling (ops : RealOps) (imgW imgH : Nat) (ratio : ℚ)
    (octave : Nat) (idx : Int) (s : Segment) :
    (assembleKeyLine ops imgW imgH ratio octave idx s).start_point_x =
      (assembleKeyLine ops imgW imgH ratio octave idx s).s_point_in_octave_x
        * ratio ^ octave ∧
    (assembleKeyLine ops imgW imgH ratio octave idx s).start_point_y =
      (assembleKeyLine ops imgW imgH ratio octave idx s).s_point_in_octave_y
        * ratio ^ octave ∧
    (assembleKeyLine ops imgW imgH ratio octave idx s).end_point_x =
      (assembleKeyLine ops imgW imgH ratio octave idx s).e_point_in_octave_x
        * ratio ^ octave ∧
    (assembleKeyLine ops imgW imgH ratio octave idx s).end_point_y =
      (assembleKeyLine ops imgW imgH ratio octave idx s).e_point_in_octave_y
        * ratio ^ octave ∧
    (assembleKeyLine ops imgW imgH ratio octave idx s).octave = (octave : Int) :=
  ⟨rfl, rfl, rfl, rfl, rfl⟩

/-- Modelled from the spec: single-octave assembly — each segment of one
octave becomes a record whose `class_id` is its emission order, counted from
the given starting index. -/
def assembleAux (ops : RealOps) (imgW imgH : Nat) (ratio : ℚ) (octave : Nat) :
    Int → List Segment → List KeyLine
  | _, [] => []
  | i, s :: rest =>
    assembleKeyLine ops imgW imgH ratio octave i s ::
      assembleAux ops imgW imgH ratio octave (i + 1) rest

/-- Modelled from the spec: the records of one octave in single-octave
detection mode, `class_id` starting at 0. -/
def assembleOctaveLines (ops : RealOps) (imgW imgH : Nat) (ratio : ℚ)
    (octave : Nat) (segs : List Segment) : List KeyLine :=
  assembleAux ops imgW imgH ratio octave 0 segs

theorem assembleAux_length (ops : RealOps) (imgW imgH : Nat) (ratio : ℚ)
    (octave : Nat) (i : Int) (segs : List Segment) :
    (assembleAux ops imgW imgH ratio octave i segs).length = segs.length := by
  induction segs generalizing i with
  | nil => rfl
  | cons s rest ih => simp [assembleAux, ih]

theorem assembleAux_getD (ops : RealOps) (imgW imgH : Nat) (ratio : ℚ)
    (octave : Nat) (i : Int) (segs : List Segment) (k : Nat) (hk : k < segs.length) :
    (assembleAux ops imgW imgH ratio octave i segs).getD k KeyLine.new =
      assembleKeyLine ops imgW imgH ratio octave (i + k) (segs.getD k ⟨0, 0, 0, 0⟩) := by
  induction segs generalizing i k with
  | nil => simp at hk
  | cons s rest ih =>
    cases k with
    | zero => simp [assembleAux]
    | succ k =>
      have hk' : k < rest.length := by simpa using hk
      simp only [assembleAux, List.getD_cons_succ]
      rw [ih (i + 1) k hk']
      congr 1
      omega

/-- C6: in single-octave detection mode, every record's `class_id` is its
emission order within the octave (a per-octave sequence index starting at 0),
and its `octave` field is the octave it came from. -/
theorem keyline_class_id_single_octave (ops : RealOps) (imgW imgH : Nat)
    (ratio : ℚ) (octave : Nat) (segs : List Segment) (k : Nat)
    (hk : k < segs.length) :
    (assembleOctaveLines ops imgW imgH ratio octave segs).length = segs.length ∧
    ((assembleOctaveLines ops imgW imgH ratio octave segs).getD k
      KeyLine.new).class_id = (k : Int) ∧
    ((assembleOctaveLines ops imgW imgH ratio octave segs).getD k
      KeyLine.new).octave = (octave : Int) := by
  refine ⟨assembleAux_length ops imgW imgH ratio octave 0 segs, ?_, ?_⟩ <;>
    rw [assembleOctaveLines, assembleAux_getD ops imgW imgH ratio octave 0 segs k hk] <;>
    simp [assembleKeyLine]

theorem keyline_class_id_single_octave_witness :
    (assembleOctaveLines ⟨fun _ => 0, fun _ _ => 0⟩ 4 4 2 1
      [⟨0, 0, 1, 1⟩, ⟨0, 1, 1, 0⟩]).length = [⟨0, 0, 1, 1⟩, (⟨0, 1, 1, 0⟩ : Segment)].length ∧
    ((assembleOctaveLines ⟨fun _ => 0, fun _ _ => 0⟩ 4 4 2 1
      [⟨0, 0, 1, 1⟩, ⟨0, 1, 1, 0⟩]).getD 1 KeyLine.new).class_id = (1 : Int) ∧
    ((assembleOctaveLines ⟨fun _ => 0, fun _ _ => 0⟩ 4 4 2 1
      [⟨0, 0, 1, 1⟩, ⟨0, 1, 1, 0⟩]).getD 1 KeyLine.new).octave = ((1 : Nat) : Int) :=
  keyline_class_id_single_octave ⟨fun _ => 0, fun _ _ => 0⟩ 4 4 2 1
    [⟨0, 0, 1, 1⟩, ⟨0, 1, 1, 0⟩] 1 (by simp)

/-! ## The pyramid builder -/

/-- An image: a 2D grid of pixel samples with rational luminance values. -/
structure Image where
  width : Nat
  height : Nat
  pix : Nat → Nat → ℚ

/-- Modelled from the spec: downsampling by the reduction ratio. -/
def downsample (ratio : Nat) (img : Image) : Image :=
  ⟨img.width / ratio, img.height / ratio, fun x y => img.pix (x * ratio) (y * ratio)⟩

/-- Modelled from the spec: the octave images — index 0 is the original, each
subsequent image is Gaussian blur (the `blur` parameter of the model)
followed by downsampling by the reduction ratio. -/
def octaveImage (blur : Image → Image) (ratio : Nat) (img : Image) : Nat → Image
  | 0 => img
  | k + 1 => downsample ratio (blur (octaveImage blur ratio img k))

/-- Modelled from the spec: pyramid construction — given an image, a
requested octave count and a reduction ratio, return that many images, or an
error, reported synchronously with no partial results, exactly when the
image is empty or the octave count is less than 1. -/
def buildPyramid (blur : Image → Image) (img : Image) (numOctaves : Int)
    (ratio : Nat) : Except String (List Image) :=
  if img.width = 0 ∨ img.height = 0 then .error "empty image"
  else if numOctaves < 1 then .error "invalid octave count"
  else .ok ((List.range numOctaves.toNat).map (octaveImage blur ratio img))

/-- C8: pyramid construction fails exactly when the input image is empty or
the requested octave count is less than 1; the error is returned to the
caller with no partial results, and on valid input the full list of octave
images is returned, with octave 0 the original image. -/
theorem pyramid_fails_only_on_invalid (blur : Image → Image) (img : Image)
    (numOctaves : Int) (ratio : Nat) :
    ((∃ e, buildPyramid blur img numOctaves ratio = .error e) ↔
      (img.width = 0 ∨ img.height = 0 ∨ numOctaves < 1)) ∧
    (∀ imgs, buildPyramid blur img numOctaves ratio = .ok imgs →
      imgs.length = numOctaves.toNat ∧ imgs.getD 0 ⟨0, 0, fun _ _ => 0⟩ = img) := by
  unfold buildPyramid
  by_cases h1 : img.width = 0 ∨ img.height = 0
  · rw [if_pos h1]
    refine ⟨⟨fun _ => by tauto, fun _ => ⟨"empty image", rfl⟩⟩, ?_⟩
    intro imgs h
    cases h
  · rw [if_neg h1]
    by_cases h2 : numOctaves < 1
    · rw [if_pos h2]
      refine ⟨⟨fun _ => by tauto, fun _ => ⟨"invalid octave count", rfl⟩⟩, ?_⟩
      intro imgs h
      cases h
    · rw [if_neg h2]
      constructor
      · constructor
        · rintro ⟨e, he⟩
          cases he
        · intro hor
          rcases hor with h | h | h
          · exact absurd (Or.inl h) h1
          · exact absurd (Or.inr h) h1
          · exact absurd h h2
      · intro imgs h
        obtain rfl : (List.range numOctaves.toNat).map (octaveImage blur ratio img)
            = imgs := by
          cases h
          rfl
        refine ⟨by simp, ?_⟩
        have hpos : 0 < numOctaves.toNat := by omega
        rw [List.getD_eq_getElem _ _ (by simpa using hpos)]
        simp only [List.getElem_map, List.getElem_range]
        rfl
